import Mathlib

/-!
Verification of the web-content-to-markdown extraction engine
(`src/skills/web_analyzer_skill.py`).

The HTML DOM is shallowly embedded as a tree of nodes (element with tag,
attributes and children / text / comment), mirroring the BeautifulSoup parse
tree.  Python float scores are modelled as exact rationals; the numeric
literals of the source (tag weights, boosts, thresholds) are all short
decimals, so order and equality facts transfer.  Fallible external steps
(browser rendering, HTML parsing) are parameters of type `Except String _`;
the pure pipeline stages are translated function by function from the source.
-/

namespace WebAnalyzer

/-- A node of the parsed HTML document: an element with tag name, attribute
list and children, a text node, or a comment node. -/
inductive Node where
  | elem (tag : String) (attrs : List (String × String)) (children : List Node)
  | text (s : String)
  | comment (s : String)
deriving Repr

mutual

/-- Decidable equality on nodes (mutually with node lists). -/
def Node.deq : (a b : Node) → Decidable (a = b)
  | .elem t1 a1 c1, .elem t2 a2 c2 =>
    match decEq t1 t2 with
    | isFalse h => isFalse (by simp only [Node.elem.injEq]; tauto)
    | isTrue ht =>
      match decEq a1 a2 with
      | isFalse h => isFalse (by simp only [Node.elem.injEq]; tauto)
      | isTrue ha =>
        match Node.deqList c1 c2 with
        | isFalse h => isFalse (by simp only [Node.elem.injEq]; tauto)
        | isTrue hc => isTrue (by rw [ht, ha, hc])
  | .elem _ _ _, .text _ => isFalse (by intro h; cases h)
  | .elem _ _ _, .comment _ => isFalse (by intro h; cases h)
  | .text _, .elem _ _ _ => isFalse (by intro h; cases h)
  | .text s1, .text s2 =>
    match decEq s1 s2 with
    | isFalse h => isFalse (by simp only [Node.text.injEq]; exact h)
    | isTrue h => isTrue (by rw [h])
  | .text _, .comment _ => isFalse (by intro h; cases h)
  | .comment _, .elem _ _ _ => isFalse (by intro h; cases h)
  | .comment _, .text _ => isFalse (by intro h; cases h)
  | .comment s1, .comment s2 =>
    match decEq s1 s2 with
    | isFalse h => isFalse (by simp only [Node.comment.injEq]; exact h)
    | isTrue h => isTrue (by rw [h])

/-- Decidable equality on node lists. -/
def Node.deqList : (as bs : List Node) → Decidable (as = bs)
  | [], [] => isTrue rfl
  | _ :: _, [] => isFalse (by intro h; cases h)
  | [], _ :: _ => isFalse (by intro h; cases h)
  | a :: as, b :: bs =>
    match Node.deq a b with
    | isFalse h => isFalse (by simp only [List.cons.injEq]; tauto)
    | isTrue h1 =>
      match Node.deqList as bs with
      | isFalse h => isFalse (by simp only [List.cons.injEq]; tauto)
      | isTrue h2 => isTrue (by rw [h1, h2])

end

instance : DecidableEq Node := Node.deq

/-- Look up an attribute value (`tag.get(key)` on a BeautifulSoup tag). -/
def attrGet (attrs : List (String × String)) (key : String) : Option String :=
  (attrs.find? (fun p => p.1 == key)).map (fun p => p.2)

/-- `tag.get(key, "")`: attribute value with empty-string default. -/
def attrGetD (attrs : List (String × String)) (key : String) : String :=
  (attrGet attrs key).getD ""

/-- Python `\s` (ASCII whitespace). -/
def isPySpace (c : Char) : Bool :=
  c == ' ' || c == '\t' || c == '\n' || c == '\r' ||
    c == '\x0b' || c == '\x0c'

/-- Python `str.strip()`: drop whitespace from both ends. -/
def trimPy (s : String) : String :=
  String.mk (((s.data.dropWhile isPySpace).reverse.dropWhile isPySpace).reverse)

/-- Python `str.lower()`. -/
def toLowerPy (s : String) : String :=
  String.mk (s.data.map Char.toLower)

/-- Python `str.startswith`: character-list prefix test. -/
def startsWithPy (s pre : String) : Bool :=
  pre.data.isPrefixOf s.data

/-- Substring occurrence test on character lists. -/
def containsSub (hay pat : List Char) : Bool :=
  pat.isPrefixOf hay ||
    match hay with
    | [] => false
    | _ :: t => containsSub t pat

mutual

/-- `element.get_text(strip=True)`: concatenation of all descendant text
nodes, each stripped of surrounding whitespace (comments excluded). -/
def getTextNode : Node → String
  | .elem _ _ c => getTextList c
  | .text s => trimPy s
  | .comment _ => ""

/-- Text of a list of nodes, concatenated in order. -/
def getTextList : List Node → String
  | [] => ""
  | x :: xs => getTextNode x ++ getTextList xs

end

mutual

/-- All strict descendants of a node, in document (preorder) order. -/
def descendantsN : Node → List Node
  | .elem _ _ c => descendantsL c
  | _ => []

/-- All nodes of a node list together with their descendants, preorder. -/
def descendantsL : List Node → List Node
  | [] => []
  | x :: xs => x :: descendantsN x ++ descendantsL xs

end

/-- `soup.find_all(...)`: the strict descendants of the root that satisfy the
predicate, in document order. -/
def find_all (p : Node → Bool) (root : Node) : List Node :=
  (descendantsN root).filter p

/-- Predicate matching an element node with the given (lower-case) tag name. -/
def tagPred (name : String) : Node → Bool
  | .elem t _ _ => t == name
  | _ => false

/-- Predicate matching a comment node (`isinstance(text, Comment)`). -/
def commentPred : Node → Bool
  | .comment _ => true
  | _ => false

/-- Case-insensitive substring test: `re.search(pat, hay, re.I)` for a plain
lower-case word `pat`. -/
def containsCI (hay pat : String) : Bool :=
  containsSub (toLowerPy hay).data pat.data

/-- Element whose `class` attribute matches the pattern case-insensitively. -/
def classPred (pat : String) : Node → Bool
  | .elem _ attrs _ =>
    match attrGet attrs "class" with
    | some v => containsCI v pat
    | none => false
  | _ => false

/-- Element whose `id` attribute matches the pattern case-insensitively. -/
def idPred (pat : String) : Node → Bool
  | .elem _ attrs _ =>
    match attrGet attrs "id" with
    | some v => containsCI v pat
    | none => false
  | _ => false

mutual

/-- `node.decompose()` driven by a predicate: remove every subtree whose root
satisfies `p`; returns `none` when the node itself is removed. -/
def removeAllAux (p : Node → Bool) : Node → Option Node
  | .elem t a c =>
    if p (.elem t a c) then none else some (.elem t a (removeAllList p c))
  | n => if p n then none else some n

/-- Removal pass over a list of sibling nodes. -/
def removeAllList (p : Node → Bool) : List Node → List Node
  | [] => []
  | x :: xs =>
    match removeAllAux p x with
    | none => removeAllList p xs
    | some y => y :: removeAllList p xs

end

/-- One removal pass applied to the document root (the root itself is never
matched by `find_all`, so it is kept). -/
def removeAll (p : Node → Bool) : Node → Node
  | .elem t a c => .elem t a (removeAllList p c)
  | n => n

/-- The fixed denylist of tag names removed by the Cleaner. -/
def unwanted_tags : List String :=
  ["script", "style", "meta", "link", "noscript",
   "iframe", "embed", "object", "form", "input",
   "button", "select", "textarea", "nav", "footer",
   "header", "aside", "advertisement"]

/-- The fixed denylist of class/id substring patterns. -/
def unwanted_patterns : List String :=
  ["advertisement", "ads", "popup", "modal", "cookie",
   "newsletter", "subscribe", "social", "share",
   "related", "sidebar", "menu", "navigation"]

/-- The removal passes of `clean_html_content`, in source order: one pass per
denylisted tag name, then the comment pass, then per pattern a class pass
followed by an id pass. -/
def cleanPasses : List (Node → Bool) :=
  unwanted_tags.map tagPred ++ [commentPred] ++
    unwanted_patterns.flatMap (fun pat => [classPred pat, idPred pat])

/-- `clean_html_content`: sequentially decompose all unwanted tags, comments
and pattern-matching elements from the parsed document. -/
def clean_html_content (soup : Node) : Node :=
  cleanPasses.foldl (fun t p => removeAll p t) soup

/-- `TAG_SCORES`: the per-tag weight table. -/
def TAG_SCORES : String → Option ℚ
  | "h1" => some 3.0
  | "h2" => some 2.5
  | "h3" => some 2.0
  | "h4" => some 1.5
  | "p" => some 1.5
  | "li" => some 1.2
  | "ul" => some 1.0
  | "ol" => some 1.0
  | "table" => some 2.0
  | "thead" => some 0.5
  | "tbody" => some 0.5
  | "tr" => some 0.3
  | "td" => some 0.2
  | "th" => some 0.3
  | "img" => some 1.5
  | "figure" => some 1.5
  | "figcaption" => some 1.2
  | "blockquote" => some 1.0
  | "code" => some 1.0
  | "pre" => some 1.0
  | "strong" => some 0.5
  | "em" => some 0.5
  | "a" => some 0.0
  | "span" => some 0.3
  | "div" => some 0.5
  | _ => none

/-- `CONTAINER_SCORES`: weight table for ancestor containers. -/
def CONTAINER_SCORES : String → Option ℚ
  | "main" => some 3
  | "article" => some 2
  | "section" => some 2
  | "body" => some 1
  | "div" => some 0.5
  | _ => none

/-- `TAG_SCORES.get(element.name.lower(), 0.5)`: the base score of a tag
before boosts and penalties. -/
def baseScore (name : String) : ℚ :=
  (TAG_SCORES (toLowerPy name)).getD 0.5

/-- The additive ancestor-container boost: `0.1 × container-weight` summed
over the whole parent chain. -/
def ancestorBoost (ancestors : List String) : ℚ :=
  ancestors.foldl (fun s n => s + (CONTAINER_SCORES (toLowerPy n)).getD 0 * 0.1) 0

/-- `calculate_element_score`: base tag weight, multiplied by the length
boost, plus the ancestor-container boost, times the low-content penalty.
The parent chain of the source's element is passed explicitly as the list of
ancestor tag names (nearest first). -/
def calculate_element_score (element : Node) (ancestors : List String) : ℚ :=
  match element with
  | .elem name _ _ =>
    let score := baseScore name
    let text_length := (getTextNode element).length
    let score :=
      if text_length > 100 then score * 1.5
      else if text_length > 50 then score * 1.2
      else score
    let score := score + ancestorBoost ancestors
    if text_length < 10 then score * 0.3 else score
  | _ => 0.0

mutual

/-- Preorder listing of the strict descendants of element children, each
paired with its chain of ancestor tag names (nearest first). -/
def descWithAncN (anc : List String) : Node → List (Node × List String)
  | .elem t a c => (.elem t a c, anc) :: descWithAncL (t :: anc) c
  | n => [(n, anc)]

/-- List version of `descWithAncN`. -/
def descWithAncL (anc : List String) : List Node → List (Node × List String)
  | [] => []
  | x :: xs => descWithAncN anc x ++ descWithAncL anc xs

end

/-- Strict descendants of the document root paired with ancestor chains; the
root's own tag name (`[document]` for a parsed soup) heads every chain. -/
def descendantsWithAnc : Node → List (Node × List String)
  | .elem t _ c => descWithAncL [t] c
  | _ => []

/-- Stable descending insertion by score: a new element is placed after every
element of equal or higher score (the stable order `list.sort(key=score,
reverse=True)` produces). -/
def insertByScoreDesc (x : Node × ℚ) : List (Node × ℚ) → List (Node × ℚ)
  | [] => [x]
  | y :: ys => if x.2 > y.2 then x :: y :: ys else y :: insertByScoreDesc x ys

/-- Stable sort by descending score. -/
def sortByScoreDesc (l : List (Node × ℚ)) : List (Node × ℚ) :=
  l.foldl (fun acc x => insertByScoreDesc x acc) []

/-- The fixed content-bearing tag set of the Ranker. -/
def content_tags : List String :=
  ["h1", "h2", "h3", "h4", "h5", "h6", "p", "li", "blockquote", "table"]

/-- `rank_content_by_importance`: score every content-bearing element (found
per tag name, in document order) and sort by descending score. -/
def rank_content_by_importance (soup : Node) : List (Node × ℚ) :=
  let scored := content_tags.flatMap (fun tn =>
    (descendantsWithAnc soup).filterMap (fun ea =>
      if tagPred tn ea.1 then
        let score := calculate_element_score ea.1 ea.2
        if score > 0.1 then some (ea.1, score) else none
      else none))
  sortByScoreDesc scored

/-- The three ordered special-element sequences. -/
structure SpecialElements where
  images : List String
  links : List String
  code_blocks : List String
deriving Repr, DecidableEq

/-- The markdown image fragment for an `<img>` element with non-empty `src`. -/
def imgEntry : Node → Option String
  | .elem _ attrs _ =>
    let src := attrGetD attrs "src"
    let alt := attrGetD attrs "alt"
    if src ≠ "" then some ("![" ++ alt ++ "](" ++ src ++ ")") else none
  | _ => none

/-- The markdown link fragment for an anchor with a non-empty `href` and
visible text longer than 3 characters. -/
def linkEntry : Node → Option String
  | .elem _ attrs c =>
    match attrGet attrs "href" with
    | some href =>
      let txt := getTextList c
      if href ≠ "" ∧ txt ≠ "" ∧ txt.length > 3 then
        some ("[" ++ txt ++ "](" ++ href ++ ")")
      else none
    | none => none
  | _ => none

/-- The fenced markdown fragment for a `<code>`/`<pre>` element whose trimmed
text exceeds 10 characters. -/
def codeEntry : Node → Option String
  | .elem _ _ c =>
    let txt := getTextList c
    if txt ≠ "" ∧ txt.length > 10 then some ("```\n" ++ txt ++ "\n```")
    else none
  | _ => none

/-- `parse_special_elements`: collect images, links and code blocks from the
document, in document order, before any cleaning. -/
def parse_special_elements (soup : Node) : SpecialElements :=
  { images := (find_all (tagPred "img") soup).filterMap imgEntry
    links :=
      ((find_all (fun n => tagPred "a" n &&
          (match n with
           | .elem _ attrs _ => (attrGet attrs "href").isSome
           | _ => false)) soup).filterMap linkEntry)
    code_blocks :=
      ((find_all (fun n => tagPred "code" n || tagPred "pre" n) soup).filterMap
        codeEntry) }

/-- `list(dict.fromkeys(links))`: deduplicate by exact string equality,
keeping the first occurrence of each string, in first-seen order. -/
def dedupFirstGo (seen : List String) : List String → List String
  | [] => []
  | x :: xs => if x ∈ seen then dedupFirstGo seen xs
               else x :: dedupFirstGo (x :: seen) xs

/-- Deduplication by exact equality, first occurrences kept. -/
def dedupFirst (l : List String) : List String :=
  dedupFirstGo [] l

/-- Tag name of a node (element tag; text/comment nodes have none). -/
def tagNameOf : Node → String
  | .elem t _ _ => t
  | _ => ""

/-- `int(tag_name[1])` for a header tag: the digit after the `h`. -/
def headerLevel (tag : String) : Nat :=
  ((tag.data.drop 1).headD '0').toNat - '0'.toNat

/-- Per-tag markdown rendering of one emitted element's text. -/
def renderElement (tag_name : String) (text : String) : String :=
  if startsWithPy tag_name "h" then
    String.mk (List.replicate (headerLevel tag_name) '#') ++ " " ++ text
  else if tag_name == "p" then text
  else if tag_name == "li" then "- " ++ text
  else if tag_name == "blockquote" then "> " ++ text
  else if tag_name == "table" then "**Table:** " ++ text
  else text

/-- The main-content loop of `convert_to_markdown`: walk the ranked list,
skip exact-duplicate or short texts, render each kept element followed by a
blank spacer line. -/
def mainParts : List (Node × ℚ) → List String → List String
  | [], _ => []
  | (e, _) :: rest, seen_text =>
    let text := getTextNode e
    if text ∈ seen_text ∨ text.length < 10 then mainParts rest seen_text
    else renderElement (toLowerPy (tagNameOf e)) text :: "" ::
           mainParts rest (text :: seen_text)

/-- The special-element sections appended after the main content: code blocks
(all), images (first 5), important links (first 10 after dedup); each section
is emitted only when its sequence is non-empty. -/
def specialParts (special_elements : SpecialElements) : List String :=
  (if special_elements.code_blocks.isEmpty then []
   else "## Code Blocks" :: special_elements.code_blocks ++ [""]) ++
  (if special_elements.images.isEmpty then []
   else "## Images" :: special_elements.images.take 5 ++ [""]) ++
  (if special_elements.links.isEmpty then []
   else "## Important Links" :: (dedupFirst special_elements.links).take 10)

/-- The full `markdown_parts` list built by `convert_to_markdown`. -/
def markdown_parts (special_elements : SpecialElements)
    (main_content : List (Node × ℚ)) : List String :=
  mainParts main_content [] ++ specialParts special_elements

/-- `convert_to_markdown`: join the parts with newlines. -/
def convert_to_markdown (special_elements : SpecialElements)
    (main_content : List (Node × ℚ)) : String :=
  String.intercalate "\n" (markdown_parts special_elements main_content)

/-! ## URL validation and normalization -/

/-- A regular expression over characters, with an explicit empty language and
character-class atoms, as needed for the source's URL pattern. -/
inductive RE where
  | fail
  | eps
  | cls (p : Char → Bool)
  | seq (a b : RE)
  | alt (a b : RE)
  | star (a : RE)

/-- Smart sequencing (collapses the empty language and the empty word). -/
def RE.mkSeq : RE → RE → RE
  | .fail, _ => .fail
  | _, .fail => .fail
  | .eps, b => b
  | a, .eps => a
  | a, b => .seq a b

/-- Smart alternation (collapses the empty language). -/
def RE.mkAlt : RE → RE → RE
  | .fail, b => b
  | a, .fail => a
  | a, b => .alt a b

/-- Does the regex accept the empty word? -/
def RE.nullable : RE → Bool
  | .fail => false
  | .eps => true
  | .cls _ => false
  | .seq a b => a.nullable && b.nullable
  | .alt a b => a.nullable || b.nullable
  | .star _ => true

/-- Brzozowski derivative with respect to one character. -/
def RE.deriv : RE → Char → RE
  | .fail, _ => .fail
  | .eps, _ => .fail
  | .cls p, c => if p c then .eps else .fail
  | .seq a b, c =>
    if a.nullable then RE.mkAlt (RE.mkSeq (a.deriv c) b) (b.deriv c)
    else RE.mkSeq (a.deriv c) b
  | .alt a b, c => RE.mkAlt (a.deriv c) (b.deriv c)
  | .star a, c => RE.mkSeq (a.deriv c) (.star a)

/-- Whole-word matching by iterated derivatives. -/
def RE.matches (r : RE) (s : List Char) : Bool :=
  (s.foldl RE.deriv r).nullable

/-- A single case-insensitive literal character (`re.IGNORECASE`). -/
def RE.chCI (c : Char) : RE :=
  .cls (fun x => x == c.toLower || x == c.toUpper)

/-- A case-insensitive literal string. -/
def RE.litCI (s : String) : RE :=
  s.data.foldr (fun c r => RE.seq (RE.chCI c) r) .eps

/-- `r?` -/
def RE.opt (r : RE) : RE := .alt r .eps

/-- `r+` -/
def RE.plus (r : RE) : RE := .seq r (.star r)

/-- `[a-zA-Z0-9.-]`, the host-character class of the URL pattern. -/
def isHostChar (c : Char) : Bool :=
  c.isAlpha || c.isDigit || c == '.' || c == '-'

/-- The URL pattern of `validate_url`:
`^(https?:\/\/)?(www\.)?([a-zA-Z0-9.-]+)(\.[a-zA-Z]{2,})?(:\d+)?(\/[^\s]*)?$`
compiled with `re.IGNORECASE`. -/
def url_regex : RE :=
  .seq (RE.opt (.seq (RE.litCI "http") (.seq (RE.opt (RE.chCI 's'))
          (RE.litCI "://"))))
    (.seq (RE.opt (RE.litCI "www."))
      (.seq (RE.plus (.cls isHostChar))
        (.seq (RE.opt (.seq (.cls (fun c => c == '.'))
                (.seq (.cls Char.isAlpha) (RE.plus (.cls Char.isAlpha)))))
          (.seq (RE.opt (.seq (.cls (fun c => c == ':'))
                  (RE.plus (.cls Char.isDigit))))
            (RE.opt (.seq (.cls (fun c => c == '/'))
              (.star (.cls (fun c => !isPySpace c)))))))))

/-- `validate_url`: `bool(url_regex.match(url))`, where the pattern's `$`
matches at the end of the string or just before a final newline. -/
def validate_url (url : String) : Bool :=
  RE.matches url_regex url.data ||
    (url.data.getLast? == some '\n' && RE.matches url_regex url.data.dropLast)

/-- `ensure_url_scheme`: prefix `https://` when no scheme is present. -/
def ensure_url_scheme (url : String) : String :=
  if !(startsWithPy url "http://" || startsWithPy url "https://") then
    "https://" ++ url
  else url

/-! ## The pipeline and the skill boundary -/

/-- The body of `url_to_markdown`'s `try` block: normalize the scheme, render
(the fallible browser step is the `render` parameter), parse (the fallible
BeautifulSoup step is the `parse` parameter), extract special elements from
the raw tree, clean, rank, and compose.  An `Except.error` is an exception
escaping the corresponding stage. -/
def url_to_markdown_body (url : String) (render : String → Except String String)
    (parse : String → Except String Node) : Except String String := do
  let clean_url := ensure_url_scheme url
  let html_content ← render clean_url
  let soup ← parse html_content
  let special_elements := parse_special_elements soup
  let cleaned_soup := clean_html_content soup
  let main_content := rank_content_by_importance cleaned_soup
  return convert_to_markdown special_elements main_content

/-- `url_to_markdown`: any exception of the body is caught and turned into
the string `"Error processing URL {url}: {cause}"`, returned as the markdown
result. -/
def url_to_markdown (url : String) (render : String → Except String String)
    (parse : String → Except String Node) : String :=
  match url_to_markdown_body url render parse with
  | .ok md => md
  | .error e => "Error processing URL " ++ url ++ ": " ++ e

/-- The structured result of `WebAnalyzerSkill.execute`. -/
structure ExecuteResult where
  success : Bool
  error : Option String
  result : Option String
  metadata : Option (String × ℚ × Nat)
deriving Repr, DecidableEq

/-- `WebAnalyzerSkill.execute`: reject invalid URL formats, otherwise convert
and wrap the markdown with metadata (the input url, the `time.time()`
timestamp passed as `now`, and the content length). -/
def execute (url : String) (render : String → Except String String)
    (parse : String → Except String Node) (now : ℚ) : ExecuteResult :=
  if !validate_url url then
    { success := false, error := some "Invalid URL format",
      result := none, metadata := none }
  else
    let markdown_content := url_to_markdown url render parse
    { success := true, error := none, result := some markdown_content,
      metadata := some (url, now, markdown_content.length) }

/-- A predicate that only inspects the root data of an element (its tag and
attributes), never the children; all cleaner denylist predicates are such. -/
def RootPred (q : Node → Bool) : Prop :=
  ∀ t a c c', q (.elem t a c) = q (.elem t a c')

/-- No strict descendant of the root satisfies `q`. -/
def NoDesc (q : Node → Bool) (root : Node) : Prop :=
  ∀ k ∈ descendantsN root, q k = false

/-! ## Induction principle for nodes and node lists -/

/-- Combined structural induction over nodes and node lists. -/
theorem nodeInd (P : Node → Prop) (Q : List Node → Prop)
    (helem : ∀ t a c, Q c → P (.elem t a c))
    (htext : ∀ s, P (.text s))
    (hcomm : ∀ s, P (.comment s))
    (hnil : Q [])
    (hcons : ∀ x xs, P x → Q xs → Q (x :: xs)) :
    (∀ n, P n) ∧ (∀ l, Q l) := by
  have hn : ∀ n, P n := fun n => Node.rec helem htext hcomm hnil hcons n
  refine ⟨hn, ?_⟩
  intro l
  induction l with
  | nil => exact hnil
  | cons x xs ih => exact hcons x xs (hn x) ih

/-! ## Lemmas about removal passes -/

theorem descendantsL_cons (x : Node) (xs : List Node) :
    descendantsL (x :: xs) = x :: (descendantsN x ++ descendantsL xs) := by
  simp [descendantsL]

/-- After one removal pass for a root-data predicate, no surviving node (root
of a kept subtree or any of its descendants) satisfies the predicate. -/
theorem removeAll_sound (p : Node → Bool) (hrp : RootPred p) :
    (∀ n, ∀ m, removeAllAux p n = some m →
      p m = false ∧ ∀ k ∈ descendantsN m, p k = false) ∧
    (∀ l, ∀ k ∈ descendantsL (removeAllList p l), p k = false) := by
  refine nodeInd
    (fun n => ∀ m, removeAllAux p n = some m →
      p m = false ∧ ∀ k ∈ descendantsN m, p k = false)
    (fun l => ∀ k ∈ descendantsL (removeAllList p l), p k = false)
    ?_ ?_ ?_ ?_ ?_
  · intro t a c ih m hm
    simp only [removeAllAux] at hm
    split at hm
    · exact Option.noConfusion hm
    · rename_i hp
      injection hm with hm
      subst hm
      refine ⟨?_, ?_⟩
      · rw [hrp t a _ c]
        simpa using hp
      · intro k hk
        exact ih k (by simpa [descendantsN] using hk)
  · intro s m hm
    simp only [removeAllAux] at hm
    split at hm
    · exact Option.noConfusion hm
    · rename_i hp
      injection hm with hm
      subst hm
      exact ⟨by simpa using hp, by intro k hk; simp [descendantsN] at hk⟩
  · intro s m hm
    simp only [removeAllAux] at hm
    split at hm
    · exact Option.noConfusion hm
    · rename_i hp
      injection hm with hm
      subst hm
      exact ⟨by simpa using hp, by intro k hk; simp [descendantsN] at hk⟩
  · intro k hk
    simp [removeAllList, descendantsL] at hk
  · intro x xs ihx ihxs k hk
    simp only [removeAllList] at hk
    cases hx : removeAllAux p x with
    | none => rw [hx] at hk; exact ihxs k hk
    | some y =>
      rw [hx] at hk
      rw [descendantsL_cons] at hk
      rcases List.mem_cons.mp hk with rfl | hk2
      · exact (ihx k hx).1
      · rcases List.mem_append.mp hk2 with h3 | h3
        · exact (ihx y hx).2 k h3
        · exact ihxs k h3

/-- A removal pass is the identity on a tree in which no node satisfies the
predicate. -/
theorem removeAll_id (p : Node → Bool) :
    (∀ n, p n = false → (∀ k ∈ descendantsN n, p k = false) →
      removeAllAux p n = some n) ∧
    (∀ l, (∀ k ∈ descendantsL l, p k = false) → removeAllList p l = l) := by
  refine nodeInd
    (fun n => p n = false → (∀ k ∈ descendantsN n, p k = false) →
      removeAllAux p n = some n)
    (fun l => (∀ k ∈ descendantsL l, p k = false) → removeAllList p l = l)
    ?_ ?_ ?_ ?_ ?_
  · intro t a c ih hp hdesc
    have hc : removeAllList p c = c := by
      apply ih
      intro k hk
      exact hdesc k (by simpa [descendantsN] using hk)
    simp only [removeAllAux]
    rw [if_neg (by simp [hp]), hc]
  · intro s hp _
    simp only [removeAllAux]
    rw [if_neg (by simp [hp])]
  · intro s hp _
    simp only [removeAllAux]
    rw [if_neg (by simp [hp])]
  · intro _
    simp [removeAllList]
  · intro x xs ihx ihxs hall
    have hx : p x = false := by
      apply hall; rw [descendantsL_cons]; exact List.mem_cons_self x _
    have hxdesc : ∀ k ∈ descendantsN x, p k = false := by
      intro k hk
      apply hall; rw [descendantsL_cons]
      exact List.mem_cons_of_mem _ (List.mem_append_left _ hk)
    have hxs : ∀ k ∈ descendantsL xs, p k = false := by
      intro k hk
      apply hall; rw [descendantsL_cons]
      exact List.mem_cons_of_mem _ (List.mem_append_right _ hk)
    simp only [removeAllList, ihx hx hxdesc, ihxs hxs]

/-- A removal pass for `p` preserves the absence of nodes satisfying a
root-data predicate `q`. -/
theorem removeAll_pres (p q : Node → Bool) (hq : RootPred q) :
    (∀ n, ∀ m, removeAllAux p n = some m →
      (q n = false ∧ ∀ k ∈ descendantsN n, q k = false) →
      (q m = false ∧ ∀ k ∈ descendantsN m, q k = false)) ∧
    (∀ l, (∀ k ∈ descendantsL l, q k = false) →
      (∀ k ∈ descendantsL (removeAllList p l), q k = false)) := by
  refine nodeInd
    (fun n => ∀ m, removeAllAux p n = some m →
      (q n = false ∧ ∀ k ∈ descendantsN n, q k = false) →
      (q m = false ∧ ∀ k ∈ descendantsN m, q k = false))
    (fun l => (∀ k ∈ descendantsL l, q k = false) →
      (∀ k ∈ descendantsL (removeAllList p l), q k = false))
    ?_ ?_ ?_ ?_ ?_
  · intro t a c ih m hm hinv
    simp only [removeAllAux] at hm
    split at hm
    · exact Option.noConfusion hm
    · injection hm with hm
      subst hm
      constructor
      · rw [hq t a _ c]; exact hinv.1
      · intro k hk
        refine (ih ?_ k ?_)
        · intro k' hk'
          exact hinv.2 k' (by simpa [descendantsN] using hk')
        · simpa [descendantsN] using hk
  · intro s m hm hinv
    simp only [removeAllAux] at hm
    split at hm
    · exact Option.noConfusion hm
    · injection hm with hm; subst hm; exact hinv
  · intro s m hm hinv
    simp only [removeAllAux] at hm
    split at hm
    · exact Option.noConfusion hm
    · injection hm with hm; subst hm; exact hinv
  · intro _ k hk
    simp [removeAllList, descendantsL] at hk
  · intro x xs ihx ihxs hall k hk
    have hx : q x = false := by
      apply hall; rw [descendantsL_cons]; exact List.mem_cons_self x _
    have hxdesc : ∀ k' ∈ descendantsN x, q k' = false := by
      intro k' hk'
      apply hall; rw [descendantsL_cons]
      exact List.mem_cons_of_mem _ (List.mem_append_left _ hk')
    have hxs : ∀ k' ∈ descendantsL xs, q k' = false := by
      intro k' hk'
      apply hall; rw [descendantsL_cons]
      exact List.mem_cons_of_mem _ (List.mem_append_right _ hk')
    simp only [removeAllList] at hk
    cases hx' : removeAllAux p x with
    | none => rw [hx'] at hk; exact ihxs hxs k hk
    | some y =>
      rw [hx'] at hk
      rw [descendantsL_cons] at hk
      rcases List.mem_cons.mp hk with rfl | hk2
      · exact (ihx k hx' ⟨hx, hxdesc⟩).1
      · rcases List.mem_append.mp hk2 with h3 | h3
        · exact (ihx y hx' ⟨hx, hxdesc⟩).2 k h3
        · exact ihxs hxs k h3

/-- Root-level soundness: after `removeAll p`, no strict descendant of the
root satisfies `p`. -/
theorem removeAll_root_sound (p : Node → Bool) (hrp : RootPred p)
    (root : Node) : NoDesc p (removeAll p root) := by
  intro k hk
  cases root with
  | elem t a c =>
    exact (removeAll_sound p hrp).2 c k (by simpa [removeAll, descendantsN] using hk)
  | text s => simp [removeAll, descendantsN] at hk
  | comment s => simp [removeAll, descendantsN] at hk

/-- Root-level identity: `removeAll p` is the identity when nothing below the
root satisfies `p`. -/
theorem removeAll_root_id (p : Node → Bool) (root : Node)
    (h : NoDesc p root) : removeAll p root = root := by
  cases root with
  | elem t a c =>
    simp only [removeAll, Node.elem.injEq, true_and]
    exact (removeAll_id p).2 c (by intro k hk; exact h k (by simpa [descendantsN] using hk))
  | text s => simp [removeAll]
  | comment s => simp [removeAll]

/-- Root-level preservation: `removeAll p` preserves the absence of nodes
satisfying a root-data predicate `q`. -/
theorem removeAll_root_pres (p q : Node → Bool) (hq : RootPred q)
    (root : Node) (h : NoDesc q root) : NoDesc q (removeAll p root) := by
  intro k hk
  cases root with
  | elem t a c =>
    refine (removeAll_pres p q hq).2 c ?_ k (by simpa [removeAll, descendantsN] using hk)
    intro k' hk'
    exact h k' (by simpa [descendantsN] using hk')
  | text s => simp [removeAll, descendantsN] at hk
  | comment s => simp [removeAll, descendantsN] at hk

/-- Preservation extends along a whole sequence of removal passes. -/
theorem foldl_removeAll_pres (q : Node → Bool) (hq : RootPred q)
    (preds : List (Node → Bool)) (root : Node) (h : NoDesc q root) :
    NoDesc q (preds.foldl (fun t p => removeAll p t) root) := by
  induction preds generalizing root with
  | nil => simpa using h
  | cons p ps ih =>
    simp only [List.foldl_cons]
    exact ih (removeAll p root) (removeAll_root_pres p q hq root h)

/-- Every root-data predicate that occurs in a sequence of removal passes is
falsified everywhere below the root of the final tree. -/
theorem foldl_removeAll_sound (q : Node → Bool) (hq : RootPred q)
    (preds : List (Node → Bool)) (root : Node) (hmem : q ∈ preds) :
    NoDesc q (preds.foldl (fun t p => removeAll p t) root) := by
  induction preds generalizing root with
  | nil => cases hmem
  | cons p ps ih =>
    simp only [List.foldl_cons]
    rcases List.mem_cons.mp hmem with rfl | hmem'
    · exact foldl_removeAll_pres q hq ps (removeAll q root)
        (removeAll_root_sound q hq root)
    · exact ih (removeAll p root) hmem'

/-- A sequence of removal passes is the identity once none of its predicates
holds anywhere below the root. -/
theorem foldl_removeAll_id (preds : List (Node → Bool)) (root : Node)
    (h : ∀ p ∈ preds, NoDesc p root) :
    preds.foldl (fun t p => removeAll p t) root = root := by
  induction preds with
  | nil => simp
  | cons p ps ih =>
    simp only [List.foldl_cons]
    rw [removeAll_root_id p root (h p (List.mem_cons_self p ps))]
    exact ih (fun p' hp' => h p' (List.mem_cons_of_mem _ hp'))

/-- Every predicate used by the Cleaner inspects only tag and attributes. -/
theorem cleanPasses_rootPred : ∀ p ∈ cleanPasses, RootPred p := by
  intro p hp
  simp only [cleanPasses, List.mem_append, List.mem_map, List.mem_singleton,
    List.mem_flatMap] at hp
  rcases hp with (⟨name, _, rfl⟩ | rfl) | ⟨pat, _, hpair⟩
  · intro t a c c'; simp [tagPred]
  · intro t a c c'; simp [commentPred]
  · simp only [List.mem_cons, List.mem_singleton] at hpair
    rcases hpair with rfl | rfl | h
    · intro t a c c'; simp [classPred]
    · intro t a c c'; simp [idPred]
    · cases h

/-! ## Claim C7 -/

/-- C7: the Content Cleaner is idempotent — applying `clean_html_content` a
second time to an already-cleaned tree removes no further nodes and leaves
the tree unchanged. -/
theorem clean_html_content_idempotent (soup : Node) :
    clean_html_content (clean_html_content soup) = clean_html_content soup := by
  unfold clean_html_content
  apply foldl_removeAll_id
  intro p hp
  exact foldl_removeAll_sound p (cleanPasses_rootPred p hp) cleanPasses soup hp

/-! ## Claim C2 -/

/-- C2: special elements derive from the pre-cleaning tree — any `<img>`
descendant with a non-empty `src` (wherever it sits, including inside a
`<nav>`) contributes its fragment to the images sequence of
`parse_special_elements`, while the cleaned tree contains no `<nav>` element
at all. -/
theorem specials_from_precleaning_tree (soup : Node)
    (attrs : List (String × String)) (ch : List Node)
    (hmem : Node.elem "img" attrs ch ∈ descendantsN soup)
    (hsrc : attrGetD attrs "src" ≠ "") :
    ("![" ++ attrGetD attrs "alt" ++ "](" ++ attrGetD attrs "src" ++ ")") ∈
        (parse_special_elements soup).images ∧
    find_all (tagPred "nav") (clean_html_content soup) = [] := by
  constructor
  · apply List.mem_filterMap.mpr
    refine ⟨Node.elem "img" attrs ch, ?_, ?_⟩
    · exact List.mem_filter.mpr ⟨hmem, by simp [tagPred]⟩
    · simp only [imgEntry]
      rw [if_pos hsrc]
  · have hnav : tagPred "nav" ∈ cleanPasses := by
      simp only [cleanPasses, List.mem_append]
      left; left
      exact List.mem_map.mpr ⟨"nav", by simp [unwanted_tags], rfl⟩
    have hsound := foldl_removeAll_sound (tagPred "nav")
      (cleanPasses_rootPred _ hnav) cleanPasses soup hnav
    simp only [find_all]
    apply List.filter_eq_nil_iff.mpr
    intro k hk
    simp [clean_html_content] at hsound
    simp [hsound k hk]

/-- Witness for C2: a nav-wrapped image survives into the images sequence
while the cleaned tree has no nav element. -/
theorem specials_from_precleaning_tree_witness :
    ("![logo](a.png)" ∈ (parse_special_elements
        (Node.elem "[document]" [] [Node.elem "nav" []
          [Node.elem "img" [("src", "a.png"), ("alt", "logo")] []]])).images) ∧
    find_all (tagPred "nav") (clean_html_content
        (Node.elem "[document]" [] [Node.elem "nav" []
          [Node.elem "img" [("src", "a.png"), ("alt", "logo")] []]])) = [] :=
  specials_from_precleaning_tree
    (Node.elem "[document]" [] [Node.elem "nav" []
      [Node.elem "img" [("src", "a.png"), ("alt", "logo")] []]])
    [("src", "a.png"), ("alt", "logo")] []
    (by decide) (by decide)

/-! ## Claim C5 -/

/-- C5: the URL Normalizer prepends `https://` exactly when the input lacks
an `http://` or `https://` prefix, and returns already-schemed URLs
unchanged. -/
theorem ensure_url_scheme_spec (url : String) :
    (¬ (startsWithPy url "http://" = true ∨ startsWithPy url "https://" = true) →
      ensure_url_scheme url = "https://" ++ url) ∧
    ((startsWithPy url "http://" = true ∨ startsWithPy url "https://" = true) →
      ensure_url_scheme url = url) := by
  constructor
  · intro h
    push_neg at h
    simp [ensure_url_scheme, h.1, h.2]
  · intro h
    have hc : (startsWithPy url "http://" || startsWithPy url "https://") = true := by
      rcases h with h | h <;> simp [h]
    simp [ensure_url_scheme, hc]

/-- Witness for C5 at the spec's two examples. -/
theorem ensure_url_scheme_spec_witness :
    ensure_url_scheme "example.com" = "https://example.com" ∧
    ensure_url_scheme "http://x.com" = "http://x.com" :=
  ⟨(ensure_url_scheme_spec "example.com").1 (by decide),
   (ensure_url_scheme_spec "http://x.com").2 (by decide)⟩

/-! ## Claim C8 -/

/-- C8: whenever the input string fails the permissive URL format check, the
execute operation returns the immediate failure result (success = false,
error = "Invalid URL format", null result and no metadata), for every
possible renderer and parser — no rendering or network step is consulted. -/
theorem invalid_url_immediate_failure (url : String)
    (render : String → Except String String)
    (parse : String → Except String Node) (now : ℚ)
    (h : validate_url url = false) :
    execute url render parse now =
      { success := false, error := some "Invalid URL format",
        result := none, metadata := none } := by
  simp [execute, h]

/-- Witness for C8 at the spec's failing input. -/
theorem invalid_url_immediate_failure_witness :
    validate_url "not a url at all with spaces" = false ∧
    execute "not a url at all with spaces" (fun _ => Except.error "boom")
        (fun _ => Except.error "no parse") 0 =
      { success := false, error := some "Invalid URL format",
        result := none, metadata := none } :=
  ⟨by decide,
   invalid_url_immediate_failure "not a url at all with spaces"
     (fun _ => Except.error "boom") (fun _ => Except.error "no parse") 0
     (by decide)⟩

/-! ## Claim C1 -/

/-- Counterexample to C1: on a render failure for a valid URL, `execute`
returns success = true with the error text as the result payload and a null
error — not the failure-shaped result the claim states. -/
theorem render_failure_not_failure_shaped :
    (execute "example.com" (fun _ => Except.error "boom")
        (fun _ => Except.error "no parse") 0).success = true ∧
    (execute "example.com" (fun _ => Except.error "boom")
        (fun _ => Except.error "no parse") 0).result =
      some "Error processing URL example.com: boom" ∧
    (execute "example.com" (fun _ => Except.error "boom")
        (fun _ => Except.error "no parse") 0).error = none := by
  refine ⟨by decide, by decide, by decide⟩

/-- C1 (amended): an exception in rendering or any later pipeline stage is
caught inside `url_to_markdown`, which returns the string
`"Error processing URL {url}: {cause}"` as a normal markdown result;
`execute` therefore never raises and wraps that message as a success result
(success = true, error = null, the message as payload). -/
theorem pipeline_exception_wrapped_as_success (url : String)
    (render : String → Except String String)
    (parse : String → Except String Node) (now : ℚ) (e : String)
    (hv : validate_url url = true)
    (hbody : url_to_markdown_body url render parse = Except.error e) :
    url_to_markdown url render parse =
      "Error processing URL " ++ url ++ ": " ++ e ∧
    execute url render parse now =
      { success := true, error := none,
        result := some ("Error processing URL " ++ url ++ ": " ++ e),
        metadata := some (url, now,
          ("Error processing URL " ++ url ++ ": " ++ e).length) } := by
  have hmd : url_to_markdown url render parse =
      "Error processing URL " ++ url ++ ": " ++ e := by
    simp [url_to_markdown, hbody]
  exact ⟨hmd, by simp [execute, hv, hmd]⟩

/-- Witness for the amended C1 at a concrete failing render. -/
theorem pipeline_exception_wrapped_as_success_witness :
    execute "example.org" (fun _ => Except.error "net down")
        (fun _ => Except.error "no parse") 7 =
      { success := true, error := none,
        result := some "Error processing URL example.org: net down",
        metadata := some ("example.org", 7, 42) } :=
  (pipeline_exception_wrapped_as_success "example.org"
    (fun _ => Except.error "net down") (fun _ => Except.error "no parse")
    7 "net down" (by decide) rfl).2

/-! ## Claim C3 -/

/-- Counterexample to C3: on a successful pipeline run for the scheme-less
URL "example.com", the metadata holds the raw input URL, not the normalized
scheme-qualified URL. -/
theorem metadata_holds_raw_url :
    (execute "example.com" (fun _ => Except.ok "<html></html>")
        (fun _ => Except.ok (Node.elem "[document]" [] [])) 0).metadata =
      some ("example.com", 0, 0) ∧
    ("example.com" : String) ≠ ensure_url_scheme "example.com" := by
  refine ⟨by decide, by decide⟩

/-- C3 (amended): on success, `execute` returns success = true with the
markdown document, and metadata holding the input URL exactly as given (not
scheme-normalized), the timestamp, and the markdown's character length. -/
theorem execute_success_shape (url md : String)
    (render : String → Except String String)
    (parse : String → Except String Node) (now : ℚ)
    (hv : validate_url url = true)
    (hok : url_to_markdown_body url render parse = Except.ok md) :
    execute url render parse now =
      { success := true, error := none, result := some md,
        metadata := some (url, now, md.length) } := by
  simp [execute, hv, url_to_markdown, hok]

/-- Witness for the amended C3 on a concrete successful run. -/
theorem execute_success_shape_witness :
    execute "http://x.com" (fun _ => Except.ok "")
        (fun _ => Except.ok (Node.elem "[document]" [] [])) 3 =
      { success := true, error := none, result := some "",
        metadata := some ("http://x.com", 3, 0) } :=
  execute_success_shape "http://x.com" "" (fun _ => Except.ok "")
    (fun _ => Except.ok (Node.elem "[document]" [] [])) 3 (by decide) rfl

/-! ## Claims C4 and C6 -/

/-- Every weight in the tag table is nonnegative. -/
theorem TAG_SCORES_nonneg (s : String) (v : ℚ) (h : TAG_SCORES s = some v) :
    0 ≤ v := by
  unfold TAG_SCORES at h
  split at h <;>
    first
    | exact Option.noConfusion h
    | (injection h with h; rw [← h]; norm_num)

/-- Every weight in the container table is nonnegative. -/
theorem CONTAINER_SCORES_nonneg (s : String) (v : ℚ)
    (h : CONTAINER_SCORES s = some v) : 0 ≤ v := by
  unfold CONTAINER_SCORES at h
  split at h <;>
    first
    | exact Option.noConfusion h
    | (injection h with h; rw [← h]; norm_num)

/-- Base scores are nonnegative. -/
theorem baseScore_nonneg (s : String) : 0 ≤ baseScore s := by
  unfold baseScore
  cases h : TAG_SCORES (toLowerPy s) with
  | none => norm_num
  | some v => simpa using TAG_SCORES_nonneg _ v h

/-- One container-boost summand is nonnegative. -/
theorem container_getD_nonneg (s : String) :
    (0 : ℚ) ≤ (CONTAINER_SCORES (toLowerPy s)).getD 0 := by
  cases h : CONTAINER_SCORES (toLowerPy s) with
  | none => norm_num
  | some v => simpa using CONTAINER_SCORES_nonneg _ v h

/-- The whole ancestor boost is nonnegative. -/
theorem ancestorBoost_nonneg (anc : List String) : 0 ≤ ancestorBoost anc := by
  unfold ancestorBoost
  suffices h : ∀ (s : ℚ), 0 ≤ s →
      0 ≤ anc.foldl
        (fun s n => s + (CONTAINER_SCORES (toLowerPy n)).getD 0 * 0.1) s from
    h 0 le_rfl
  induction anc with
  | nil => intro s hs; simpa using hs
  | cons a l ih =>
    intro s hs
    simp only [List.foldl_cons]
    apply ih
    have hc := container_getD_nonneg a
    linarith

/-- Counterexample to C4: `blockquote` is not outside the weight table — it
carries the explicit weight 1.0, not the 0.5 default the claim asserts. -/
theorem blockquote_weight_not_default :
    baseScore "blockquote" = 1.0 ∧ baseScore "blockquote" ≠ 0.5 := by
  have h : baseScore "blockquote" = 1.0 := rfl
  exact ⟨h, by rw [h]; norm_num⟩

/-- C4 (amended): with no boost or penalty applicable (text length between 10
and 50, no scoring ancestors) the score is exactly the base score, and the
base scores are the table weights h1=3.0, h2=2.5, h3=2.0, h4=1.5, p=1.5,
li=1.2, table=2.0, blockquote=1.0, with only h5 and h6 of the content set
absent from the table and hence defaulting to 0.5. -/
theorem base_scores_per_weight_table :
    (∀ name attrs c,
      10 ≤ (getTextNode (Node.elem name attrs c)).length →
      (getTextNode (Node.elem name attrs c)).length ≤ 50 →
      calculate_element_score (Node.elem name attrs c) [] = baseScore name) ∧
    baseScore "h1" = 3.0 ∧ baseScore "h2" = 2.5 ∧ baseScore "h3" = 2.0 ∧
    baseScore "h4" = 1.5 ∧ baseScore "p" = 1.5 ∧ baseScore "li" = 1.2 ∧
    baseScore "table" = 2.0 ∧ baseScore "blockquote" = 1.0 ∧
    TAG_SCORES "h5" = none ∧ TAG_SCORES "h6" = none ∧
    baseScore "h5" = 0.5 ∧ baseScore "h6" = 0.5 := by
  refine ⟨?_, rfl, rfl, rfl, rfl, rfl, rfl, rfl, rfl, rfl, rfl, rfl, rfl⟩
  intro name attrs c h1 h2
  simp only [calculate_element_score, ancestorBoost, List.foldl_nil]
  split_ifs <;> first | (exfalso; omega) | ring

/-- Witness for C4's base-score clause at a boost-free element. -/
theorem base_scores_per_weight_table_witness :
    calculate_element_score (Node.elem "h1" [] [Node.text "a dozen chars"]) []
      = baseScore "h1" :=
  base_scores_per_weight_table.1 "h1" [] [Node.text "a dozen chars"]
    (by decide) (by decide)

/-- C6: among elements with the same tag name and the same ancestor-tag
chain, longer visible (trimmed) text never yields a strictly lower score. -/
theorem text_longer_never_scores_lower (t : String)
    (a1 a2 : List (String × String)) (c1 c2 : List Node) (anc : List String)
    (h : (getTextNode (Node.elem t a1 c1)).length ≤
         (getTextNode (Node.elem t a2 c2)).length) :
    calculate_element_score (Node.elem t a1 c1) anc ≤
      calculate_element_score (Node.elem t a2 c2) anc := by
  have hb := baseScore_nonneg t
  have hA := ancestorBoost_nonneg anc
  simp only [calculate_element_score]
  generalize hL1 : (getTextNode (Node.elem t a1 c1)).length = L1 at h ⊢
  generalize hL2 : (getTextNode (Node.elem t a2 c2)).length = L2 at h ⊢
  split_ifs <;> linarith

/-- Witness for C6 at two concrete paragraphs. -/
theorem text_longer_never_scores_lower_witness :
    calculate_element_score (Node.elem "p" [] [Node.text "tiny"])
        ["body", "[document]"] ≤
      calculate_element_score
        (Node.elem "p" [] [Node.text "a rather longer paragraph text"])
        ["body", "[document]"] :=
  text_longer_never_scores_lower "p" [] [] [Node.text "tiny"]
    [Node.text "a rather longer paragraph text"] ["body", "[document]"]
    (by decide)

/-! ## Claim C9 -/

/-- First-seen deduplication yields a sublist (entries kept in order). -/
theorem dedupFirstGo_sublist (l : List String) :
    ∀ seen, (dedupFirstGo seen l).Sublist l := by
  induction l with
  | nil => intro seen; simp [dedupFirstGo]
  | cons x xs ih =>
    intro seen
    simp only [dedupFirstGo]
    split
    · exact (ih seen).cons x
    · exact (ih (x :: seen)).cons₂ x

/-- Nothing already seen reappears in the deduplicated remainder. -/
theorem dedupFirstGo_not_mem_seen (l : List String) :
    ∀ seen x, x ∈ dedupFirstGo seen l → x ∉ seen := by
  induction l with
  | nil => intro seen x hx; simp [dedupFirstGo] at hx
  | cons a xs ih =>
    intro seen x hx
    simp only [dedupFirstGo] at hx
    split at hx
    · exact ih seen x hx
    · rename_i ha
      rcases List.mem_cons.mp hx with rfl | hx2
      · exact ha
      · intro hxs
        exact ih (a :: seen) x hx2 (List.mem_cons_of_mem _ hxs)

/-- First-seen deduplication produces no duplicates. -/
theorem dedupFirstGo_nodup (l : List String) :
    ∀ seen, (dedupFirstGo seen l).Nodup := by
  induction l with
  | nil => intro seen; simp [dedupFirstGo]
  | cons a xs ih =>
    intro seen
    simp only [dedupFirstGo]
    split
    · exact ih seen
    · refine List.Nodup.cons ?_ (ih (a :: seen))
      intro hmem
      exact dedupFirstGo_not_mem_seen xs (a :: seen) a hmem
        (List.mem_cons_self a seen)

/-- On an already-duplicate-free list disjoint from `seen`, deduplication is
the identity. -/
theorem dedupFirstGo_id (l : List String) :
    ∀ seen, l.Nodup → (∀ x ∈ l, x ∉ seen) → dedupFirstGo seen l = l := by
  induction l with
  | nil => intro seen _ _; rfl
  | cons a xs ih =>
    intro seen hnd hdis
    simp only [dedupFirstGo]
    rw [if_neg (hdis a (List.mem_cons_self a xs))]
    congr 1
    refine ih (a :: seen) (List.Nodup.of_cons hnd) ?_
    intro x hx hmem
    rcases List.mem_cons.mp hmem with rfl | h2
    · exact (List.nodup_cons.mp hnd).1 hx
    · exact hdis x (List.mem_cons_of_mem _ hx) h2

/-- C9: the Important Links section consists of the link fragments
deduplicated by exact equality in first-seen order (a duplicate-free sublist
of the extracted links), truncated to at most 10; with 15 distinct links the
section holds exactly the first 10. -/
theorem links_section_dedup_cap (se : SpecialElements)
    (main : List (Node × ℚ)) :
    (se.links ≠ [] →
      ∃ pre, markdown_parts se main =
        pre ++ "## Important Links" :: (dedupFirst se.links).take 10) ∧
    ((dedupFirst se.links).Sublist se.links) ∧
    (dedupFirst se.links).Nodup ∧
    ((dedupFirst se.links).take 10).length ≤ 10 ∧
    (se.links.Nodup → se.links.length = 15 →
      (dedupFirst se.links).take 10 = se.links.take 10 ∧
      ((dedupFirst se.links).take 10).length = 10) := by
  refine ⟨?_, dedupFirstGo_sublist _ _, dedupFirstGo_nodup _ _,
    List.length_take_le 10 _, ?_⟩
  · intro hne
    have hne' : se.links.isEmpty = false := by
      simpa [List.isEmpty_iff] using hne
    refine ⟨mainParts main [] ++
      ((if se.code_blocks.isEmpty then []
        else "## Code Blocks" :: se.code_blocks ++ [""]) ++
       (if se.images.isEmpty then []
        else "## Images" :: se.images.take 5 ++ [""])), ?_⟩
    simp [markdown_parts, specialParts, hne', List.append_assoc]
  · intro hnd h15
    have hid : dedupFirst se.links = se.links :=
      dedupFirstGo_id se.links [] hnd (by simp)
    rw [hid]
    exact ⟨rfl, by rw [List.length_take, h15]; omega⟩

/-- Witness for C9 with 15 distinct link fragments. -/
theorem links_section_dedup_cap_witness :
    (dedupFirst ["[t01](u01)", "[t02](u02)", "[t03](u03)", "[t04](u04)",
      "[t05](u05)", "[t06](u06)", "[t07](u07)", "[t08](u08)", "[t09](u09)",
      "[t10](u10)", "[t11](u11)", "[t12](u12)", "[t13](u13)", "[t14](u14)",
      "[t15](u15)"]).take 10 =
      ["[t01](u01)", "[t02](u02)", "[t03](u03)", "[t04](u04)",
        "[t05](u05)", "[t06](u06)", "[t07](u07)", "[t08](u08)", "[t09](u09)",
        "[t10](u10)", "[t11](u11)", "[t12](u12)", "[t13](u13)", "[t14](u14)",
        "[t15](u15)"].take 10 ∧
    ((dedupFirst ["[t01](u01)", "[t02](u02)", "[t03](u03)", "[t04](u04)",
      "[t05](u05)", "[t06](u06)", "[t07](u07)", "[t08](u08)", "[t09](u09)",
      "[t10](u10)", "[t11](u11)", "[t12](u12)", "[t13](u13)", "[t14](u14)",
      "[t15](u15)"]).take 10).length = 10 :=
  (links_section_dedup_cap
    ⟨[], ["[t01](u01)", "[t02](u02)", "[t03](u03)", "[t04](u04)",
      "[t05](u05)", "[t06](u06)", "[t07](u07)", "[t08](u08)", "[t09](u09)",
      "[t10](u10)", "[t11](u11)", "[t12](u12)", "[t13](u13)", "[t14](u14)",
      "[t15](u15)"], []⟩ []).2.2.2.2 (by decide) (by decide)

/-! ## Claim C10 -/

/-- The head character of a string survives appending on the right. -/
theorem head_append (x y : String) (ch : Char) (h : x.data.head? = some ch) :
    (x ++ y).data.head? = some ch := by
  rw [String.data_append]
  cases hx : x.data with
  | nil => rw [hx] at h; simp at h
  | cons c t =>
    rw [hx] at h
    simp only [List.head?_cons, Option.some.injEq] at h
    simp [h]

/-- Every extracted image fragment starts with `!`. -/
theorem images_head (soup : Node) :
    ∀ s ∈ (parse_special_elements soup).images, s.data.head? = some '!' := by
  intro s hs
  simp only [parse_special_elements] at hs
  rcases List.mem_filterMap.mp hs with ⟨n, _, hn⟩
  cases n with
  | elem t a c =>
    simp only [imgEntry] at hn
    split at hn
    · injection hn with hn
      subst hn
      exact head_append _ _ _ (head_append _ _ _ (head_append _ _ _
        (head_append _ _ _ (by decide))))
    · exact Option.noConfusion hn
  | text s2 => exact Option.noConfusion hn
  | comment s2 => exact Option.noConfusion hn

/-- Every extracted link fragment starts with `[`. -/
theorem links_head (soup : Node) :
    ∀ s ∈ (parse_special_elements soup).links, s.data.head? = some '[' := by
  intro s hs
  simp only [parse_special_elements] at hs
  rcases List.mem_filterMap.mp hs with ⟨n, _, hn⟩
  cases n with
  | elem t a c =>
    simp only [linkEntry] at hn
    split at hn
    · split at hn
      · injection hn with hn
        subst hn
        exact head_append _ _ _ (head_append _ _ _ (head_append _ _ _
          (head_append _ _ _ (by decide))))
      · exact Option.noConfusion hn
    · exact Option.noConfusion hn
  | text s2 => exact Option.noConfusion hn
  | comment s2 => exact Option.noConfusion hn

/-- Every extracted code fragment starts with a backtick character. -/
theorem codes_head (soup : Node) :
    ∀ s ∈ (parse_special_elements soup).code_blocks,
      s.data.head? = some '`' := by
  intro s hs
  simp only [parse_special_elements] at hs
  rcases List.mem_filterMap.mp hs with ⟨n, _, hn⟩
  cases n with
  | elem t a c =>
    simp only [codeEntry] at hn
    split at hn
    · injection hn with hn
      subst hn
      exact head_append _ _ _ (head_append _ _ _ (by decide))
    · exact Option.noConfusion hn
  | text s2 => exact Option.noConfusion hn
  | comment s2 => exact Option.noConfusion hn

/-- C10: for every page's special-elements bundle, each of the three section
headers appears in the composed special sections exactly when the
corresponding sequence is non-empty; an empty sequence contributes nothing. -/
theorem section_headers_iff_nonempty (soup : Node) :
    ("## Code Blocks" ∈ specialParts (parse_special_elements soup) ↔
      (parse_special_elements soup).code_blocks ≠ []) ∧
    ("## Images" ∈ specialParts (parse_special_elements soup) ↔
      (parse_special_elements soup).images ≠ []) ∧
    ("## Important Links" ∈ specialParts (parse_special_elements soup) ↔
      (parse_special_elements soup).links ≠ []) := by
  have hI := images_head soup
  have hL := links_head soup
  have hC := codes_head soup
  set se := parse_special_elements soup with hse
  have hImgT : ∀ hdr : String, hdr.data.head? = some '#' →
      hdr ∉ se.images.take 5 := by
    intro hdr hh hmem
    have h2 := hI _ (List.mem_of_mem_take hmem)
    rw [h2] at hh
    simp at hh
  have hCodeT : ∀ hdr : String, hdr.data.head? = some '#' →
      hdr ∉ se.code_blocks := by
    intro hdr hh hmem
    have h2 := hC _ hmem
    rw [h2] at hh
    simp at hh
  have hLinkT : ∀ hdr : String, hdr.data.head? = some '#' →
      hdr ∉ (dedupFirst se.links).take 10 := by
    intro hdr hh hmem
    have h2 := hL _ ((dedupFirstGo_sublist se.links []).subset
      (List.mem_of_mem_take hmem))
    rw [h2] at hh
    simp at hh
  refine ⟨⟨?_, ?_⟩, ⟨?_, ?_⟩, ⟨?_, ?_⟩⟩
  · intro hmem hempty
    by_cases h1 : se.images.isEmpty <;> by_cases h2 : se.links.isEmpty <;>
      simp [specialParts, hempty, h1, h2] at hmem <;>
      first
      | exact hImgT _ (by decide) hmem
      | exact hLinkT _ (by decide) hmem
      | (rcases hmem with h | h <;>
          first
          | exact hImgT _ (by decide) h
          | exact hLinkT _ (by decide) h)
  · intro hne
    have h0 : se.code_blocks.isEmpty = false := by
      simpa [List.isEmpty_iff] using hne
    simp [specialParts, h0]
  · intro hmem hempty
    by_cases h1 : se.code_blocks.isEmpty <;> by_cases h2 : se.links.isEmpty <;>
      simp [specialParts, hempty, h1, h2] at hmem <;>
      first
      | exact hCodeT _ (by decide) hmem
      | exact hLinkT _ (by decide) hmem
      | (rcases hmem with h | h <;>
          first
          | exact hCodeT _ (by decide) h
          | exact hLinkT _ (by decide) h)
  · intro hne
    have h0 : se.images.isEmpty = false := by
      simpa [List.isEmpty_iff] using hne
    simp [specialParts, h0]
  · intro hmem hempty
    by_cases h1 : se.code_blocks.isEmpty <;> by_cases h2 : se.images.isEmpty <;>
      simp [specialParts, hempty, h1, h2] at hmem <;>
      first
      | exact hCodeT _ (by decide) hmem
      | exact hImgT _ (by decide) hmem
      | (rcases hmem with h | h <;>
          first
          | exact hCodeT _ (by decide) h
          | exact hImgT _ (by decide) h)
  · intro hne
    have h0 : se.links.isEmpty = false := by
      simpa [List.isEmpty_iff] using hne
    simp [specialParts, h0]

/-- Witness for C10 on a concrete page with one code block and no images or
links. -/
theorem section_headers_iff_nonempty_witness :
    "## Code Blocks" ∈ specialParts (parse_special_elements
      (Node.elem "[document]" []
        [Node.elem "pre" [] [Node.text "some long code text"]])) :=
  (section_headers_iff_nonempty
    (Node.elem "[document]" []
      [Node.elem "pre" [] [Node.text "some long code text"]])).1.mpr
    (by decide)

end WebAnalyzer
